import Mathlib

/-!
# Service-Manager: `application.c`

A shallow embedding of `src/application/src/application.c` and the properties of
its PID registry, command dispatcher, environment expansion and config loader.

Conventions of the embedding.

* A C string is a `List Char`; the terminating NUL is implicit.  Reading one
  position past the characters yields `NUL`, as reading the terminator does.
* `int` / `pid_t` are `Int`, wrapped to 32 bits where the C library produces them
  from text.
* Code that may touch memory outside a buffer, or a loop of the model that is
  given too little fuel, returns `none`.
-/

namespace ServiceManager

/-! ## Characters and C strings -/

/-- The terminator of a C string. -/
def NUL : Char := Char.ofNat 0

/-- The character `*p` of a NUL-terminated string whose characters from `p` on are `s`. -/
def cur (s : List Char) : Char := s.headD NUL

/-- The string a `char` buffer holds: its characters up to the first NUL. -/
def cstr (b : List Char) : List Char := b.takeWhile (fun c => c != NUL)

/-- The libc `isspace` in the C locale: space, and `\t \n \v \f \r`. -/
def isspace (c : Char) : Bool := c.toNat == 32 || (9 ≤ c.toNat && c.toNat ≤ 13)

/-- The libc `isdigit`. -/
def isdigit (c : Char) : Bool := 48 ≤ c.toNat && c.toNat ≤ 57

/-! ## `expand_env` (lines 80-108) -/

/-- The size of `char var[128]`. -/
def VAR_SIZE : Nat := 128

/-- The statement `out[oi++] = c` with `oi = out.length`, where `out` holds the
characters `out[0..oi)` stored so far: a store at an index that is not below
`out_size` is outside the buffer. -/
def store (out_size : Nat) (out : List Char) (c : Char) : Option (List Char) :=
  if out.length < out_size then some (out ++ [c]) else none

/-- Lines 89-91: `while (in[i] && in[i] != '}' && vi + 1 < sizeof(var)) var[vi++] = in[i++];`
The result is the characters put in `var` from index `vi` on, and the input from
the new `i` on. -/
def scan_var : List Char → Nat → List Char × List Char
  | [], _ => ([], [])
  | c :: rest, vi =>
    if c ≠ NUL ∧ c ≠ '}' ∧ vi + 1 < VAR_SIZE then
      let r := scan_var rest (vi + 1)
      (c :: r.1, r.2)
    else ([], c :: rest)

/-- Lines 99-100: `while (*val && oi + 1 < out_size) out[oi++] = *val++;` -/
def copy_val (out_size : Nat) : List Char → List Char → Option (List Char)
  | [], out => some out
  | c :: val, out =>
    if c ≠ NUL ∧ out.length + 1 < out_size then
      (store out_size out c).bind (copy_val out_size val)
    else some out

/-- The `for` loop of lines 83-105.  `s` is the input from index `i` on, `out`
the characters `out[0..oi)`.  Every iteration consumes at least one character of
the input, so `fuel` above the length of the input is never used up. -/
def expand_loop (getenv : List Char → Option (List Char)) (out_size : Nat) :
    Nat → List Char → List Char → Option (List Char)
  | 0, _, _ => none
  | fuel + 1, s, out =>
    if cur s ≠ NUL ∧ out.length + 1 < out_size then
      if cur s = '$' ∧ cur (s.drop 1) = '{' then
        let r := scan_var (s.drop 2) 0
        let s' := if cur r.2 = '}' then r.2.drop 1 else r.2
        match getenv r.1 with
        | some val => (copy_val out_size val out).bind (expand_loop getenv out_size fuel s')
        | none => expand_loop getenv out_size fuel s' out
      else
        (store out_size out (cur s)).bind (expand_loop getenv out_size fuel (s.drop 1))
    else some out

/-- The function `expand_env(in, out, out_size)`: the string left in `out`, whose
terminator is stored by line 107 at index `oi`. -/
def expand_env (getenv : List Char → Option (List Char)) (inp : List Char)
    (out_size : Nat) : Option (List Char) :=
  (expand_loop getenv out_size (inp.length + 1) inp []).bind fun out =>
    if out.length < out_size then some out else none

/-! ## Numbers as text: `printf("%d")`, `fscanf("%d")`, `atoi` -/

/-- The newline character. -/
def NL : Char := Char.ofNat 10

/-- The decimal digits of `n`, most significant first; `fuel` above the number of
digits is never used up. -/
def fmt_u : Nat → Nat → List Char
  | 0, _ => []
  | fuel + 1, n =>
    if n < 10 then [Nat.digitChar n] else fmt_u fuel (n / 10) ++ [Nat.digitChar (n % 10)]

/-- The text `printf("%d", x)` writes. -/
def fmt_d (x : Int) : List Char :=
  if x < 0 then '-' :: fmt_u (x.natAbs + 1) x.natAbs else fmt_u (x.natAbs + 1) x.natAbs

/-- The value of the leading digits of `s`, continuing the value `acc`. -/
def parse_digits : List Char → Nat → Nat
  | [], acc => acc
  | c :: rest, acc =>
    if isdigit c then parse_digits rest (acc * 10 + (c.toNat - 48)) else acc

/-- The number `strtol(s, NULL, 10)` reads before it applies its range: white space,
an optional sign, decimal digits; `none` when no digit follows. -/
def scan_int (s : List Char) : Option Int :=
  let s1 := s.dropWhile isspace
  let s2 := if cur s1 = '-' ∨ cur s1 = '+' then s1.drop 1 else s1
  if isdigit (cur s2) then
    some (if cur s1 = '-' then -(parse_digits s2 0 : Int) else (parse_digits s2 0 : Int))
  else none

/-- The range of `long` (64 bits): glibc `strtol` returns `LONG_MIN` or `LONG_MAX`
for a number outside it. -/
def to_long (x : Int) : Int :=
  if x < -9223372036854775808 then -9223372036854775808
  else if 9223372036854775807 < x then 9223372036854775807
  else x

/-- The conversion of a `long` to `int`: the low 32 bits, two's complement. -/
def to_int (x : Int) : Int := (x + 2147483648) % 4294967296 - 2147483648

/-- The conversion `fscanf(f, "%d", &pid)` at the start of a stream: the value
stored, `none` when the conversion fails or the stream is at its end. -/
def scanf_d (content : List Char) : Option Int :=
  (scan_int content).map fun x => to_int (to_long x)

/-- The libc `atoi(s)`, which is `(int) strtol(s, NULL, 10)`: `0` without digits. -/
def atoi (s : List Char) : Int :=
  match scan_int s with
  | some x => to_int (to_long x)
  | none => 0

/-! ## The process and its surroundings -/

/-- What the process does to the outside, in the order it does it. -/
inductive Event where
  | out (text : List Char)
  | err (text : List Char)
  | perror (what : List Char)
  | kill (pid sig : Int)
  | fork (ret : Int)
  | setsid (ret : Int)
  | umask (mask : Nat)
  | chdir (path : List Char) (ret : Int)
  | prctl_set_name (name : List Char)
  | signal (sig : Int)
  | write_file (path content : List Char)
  | unlink (path : List Char)
  | stat (path : List Char)
  | mkdir (path : List Char) (mode : Nat)
  | sleep (seconds : Nat)
  deriving DecidableEq

/-- The answers of the operating system.  A call made when `t` events have
happened is answered for that `t`, so the same call may be answered differently
later. -/
structure OS where
  /-- The libc `getenv`; the environment does not change. -/
  getenv : List Char → Option (List Char)
  /-- The return value of `kill(pid, sig)`. -/
  kill : Nat → Int → Int → Int
  /-- The return value of `fork()`, as seen by the process the model follows. -/
  fork : Nat → Int
  /-- The return value of `setsid()`. -/
  setsid : Nat → Int
  /-- The return value of `chdir(path)`. -/
  chdir : Nat → List Char → Int
  /-- The return value of `getpid()` in the process that reaches `write_pid`. -/
  getpid : Int
  /-- Whether `fopen(path, "w")` succeeds. -/
  fopen_w : Nat → List Char → Bool
  /-- The result of `stat(path)`: `none` for -1, else whether it is a directory. -/
  stat : Nat → List Char → Option Bool
  /-- The return value of `mkdir(path, mode)`. -/
  mkdir : Nat → List Char → Int
  /-- The text of `ctime(&now)`. -/
  ctime : Nat → List Char
  /-- The number of turns of the heartbeat loop before `handle_signal` has cleared
  `running`; `none` when no signal arrives. -/
  turns : Option Nat

/-- The files that can be opened for reading, with their content, and the events
so far. -/
structure World where
  files : List Char → Option (List Char)
  trace : List Event

/-- The globals `run_interval`, `pid_file`, `data_file` (lines 20-22). -/
structure Settings where
  run_interval : Int
  pid_file : List Char
  data_file : List Char
  deriving DecidableEq

/-- The initial values of the globals. -/
def initial_settings : Settings := ⟨5, [], []⟩

/-- How control leaves a function: it returns, the process exits with a status, or
the heartbeat loop never ends. -/
inductive Outcome where
  | returned
  | exit (status : Int)
  | forever
  deriving DecidableEq

def SIGINT : Int := 2
def SIGTERM : Int := 15
def APP_NAME : List Char := "APPLICATION".toList

/-- The format `CONFIG_PATH` with the user name for `%s`. -/
def CONFIG_PATH (user : List Char) : List Char :=
  "/home/".toList ++ user ++ "/application/config/CONFIG_FILE".toList

/-- The format `DEFAULT_PID_FILE` with the user name for `%s`. -/
def DEFAULT_PID_FILE (user : List Char) : List Char :=
  "/home/".toList ++ user ++ "/application/run/application.pid".toList

/-- The format `DEFAULT_DATA_FILE` with the user name for `%s`. -/
def DEFAULT_DATA_FILE (user : List Char) : List Char :=
  "/home/".toList ++ user ++ "/application/run/application.data".toList

/-- The world after one more event. -/
def World.log (w : World) (e : Event) : World := { w with trace := w.trace ++ [e] }

/-- The world after `fopen(path, "w")`, one `fprintf` and `fclose`. -/
def World.put (w : World) (path content : List Char) : World :=
  { files := fun q => if q = path then some content else w.files q,
    trace := w.trace ++ [Event.write_file path content] }

/-- The world after `unlink(path)`. -/
def World.remove (w : World) (path : List Char) : World :=
  { files := fun q => if q = path then none else w.files q,
    trace := w.trace ++ [Event.unlink path] }

/-- What `snprintf(buf, size, ...)` leaves in `buf` of the text it formats. -/
def snprintf (size : Nat) (text : List Char) : List Char := text.take (size - 1)

/-! ## PID registry (lines 31-62) -/

/-- The function `process_running(pid)`: `pid > 1 && kill(pid, 0) == 0`; the probe is
an event of its own. -/
def process_running (os : OS) (w : World) (pid : Int) : Bool × World :=
  if pid > 1 then
    (decide (os.kill w.trace.length pid 0 = 0), w.log (Event.kill pid 0))
  else (false, w)

/-- The function `read_pid(path)`. -/
def read_pid (w : World) (path : List Char) : Int :=
  match w.files path with
  | none => -1
  | some content =>
    match scanf_d content with
    | none => -1
    | some pid => pid

/-- The function `write_pid(path)`: `exit(1)` when the file cannot be opened. -/
def write_pid (os : OS) (w : World) (path : List Char) : Outcome × World :=
  if os.fopen_w w.trace.length path then
    (Outcome.returned, w.put path (fmt_d os.getpid ++ [NL]))
  else
    (Outcome.exit 1, w.log (Event.perror "fopen(pid_file)".toList))

/-- The function `remove_pid(path)`. -/
def remove_pid (w : World) (path : List Char) : World := w.remove path

/-! ## `ensure_dir` (lines 64-78) -/

/-- The function `ensure_dir(path)`: its return value and the world after it. -/
def ensure_dir (os : OS) (w : World) (path : List Char) : Int × World :=
  if cur path = NUL then (-1, w)
  else
    let w1 := w.log (Event.stat path)
    match os.stat w.trace.length path with
    | none =>
      let w2 := w1.log (Event.mkdir path 0o755)
      if os.mkdir w1.trace.length path ≠ 0 then (-1, w2.log (Event.perror "mkdir".toList))
      else (0, w2)
    | some isdir =>
      if !isdir then
        (-1, w1.log (Event.err ("Path exists but is not a directory: ".toList ++ path ++ [NL])))
      else (0, w1)

/-! ## `load_config` (lines 110-148) -/

def KEY_RUN_INTERVAL : List Char := "APPLICATION_RUN_INTERVAL".toList
def KEY_PID_FILE : List Char := "APPLICATION_PID_FILE".toList
def KEY_DATA_FILE : List Char := "APPLICATION_DATA_FILE".toList

/-- The characters `fgets` reads when it may read `k` more: up to and with the
first newline.  The result is the characters read and the rest of the stream. -/
def fgets_take : Nat → List Char → List Char × List Char
  | 0, s => ([], s)
  | _ + 1, [] => ([], [])
  | k + 1, c :: rest =>
    if c = NL then ([c], rest)
    else
      let r := fgets_take k rest
      (c :: r.1, r.2)

/-- The libc `fgets(line, size, f)` on the rest of a stream: `none` (NULL) at the
end of the file, else the characters stored and the rest of the stream. -/
def fgets (size : Nat) (stream : List Char) : Option (List Char × List Char) :=
  if stream = [] then none else some (fgets_take (size - 1) stream)

/-- One `%s` conversion of `sscanf` with a field width: white space is skipped,
then up to `width` characters that are not white space are taken.  The result is
`none` when the input ends before a character is taken, else the characters taken
and the rest of the input. -/
def scan_s (width : Nat) (s : List Char) : Option (List Char × List Char) :=
  let s1 := s.dropWhile isspace
  let tok := (s1.takeWhile fun c => !isspace c).take width
  if tok = [] then none else some (tok, s1.drop tok.length)

/-- The call `sscanf(p, "%255s %511s", key, raw_value)`: its return value (`-1` is
`EOF`), `key` and `raw_value`.  The blank of the format skips white space, which the
second `%s` skips as well. -/
def sscanf_key_value (p : List Char) : Int × List Char × List Char :=
  match scan_s 255 p with
  | none => (-1, [], [])
  | some (key, rest) =>
    match scan_s 511 rest with
    | none => (1, key, [])
    | some (raw_value, _) => (2, key, raw_value)

/-- The assignments of lines 133-139: the global that `key` names takes the
value, an unknown key changes nothing. -/
def assign (key value : List Char) (g : Settings) : Settings :=
  if key = KEY_RUN_INTERVAL then { g with run_interval := atoi value }
  else if key = KEY_PID_FILE then { g with pid_file := snprintf 512 value }
  else if key = KEY_DATA_FILE then { g with data_file := snprintf 512 value }
  else g

/-- The body of the `while` loop of `load_config` (lines 119-139) for the buffer
`line` that `fgets` filled. -/
def process_line (getenv : List Char → Option (List Char)) (line : List Char)
    (g : Settings) : Option Settings :=
  let p := (cstr line).dropWhile isspace
  if cur p = '#' ∨ cur p = NUL then some g
  else
    let r := sscanf_key_value p
    if r.1 ≠ 2 then some g
    else (expand_env getenv r.2.2 512).bind fun value => some (assign r.2.1 value g)

/-- The `while (fgets(line, sizeof(line), f))` loop of `load_config`; every turn
reads at least one character, so `fuel` above the length of the file is never
used up. -/
def load_lines (getenv : List Char → Option (List Char)) :
    Nat → List Char → Settings → Option Settings
  | 0, _, _ => none
  | fuel + 1, stream, g =>
    match fgets 1024 stream with
    | none => some g
    | some (line, rest) => (process_line getenv line g).bind (load_lines getenv fuel rest)

/-- The text of a path setting in the summary that `load_config` prints. -/
def shown (path : List Char) : List Char :=
  if cur path ≠ NUL then path else "(default)".toList

/-- The four `printf` calls of lines 144-147. -/
def print_summary (w : World) (g : Settings) : World :=
  (((w.log (Event.out "Loaded config:\n".toList)).log
    (Event.out ("  Interval : ".toList ++ fmt_d g.run_interval ++ [NL]))).log
    (Event.out ("  PID file : ".toList ++ shown g.pid_file ++ [NL]))).log
    (Event.out ("  Data file: ".toList ++ shown g.data_file ++ [NL]))

/-- The function `load_config(path)`: the globals and the world after it. -/
def load_config (os : OS) (w : World) (path : List Char) (g : Settings) :
    Option (Settings × World) :=
  match w.files path with
  | none => some (g, w.log (Event.err ("Config file not found: ".toList ++ path ++ [NL])))
  | some content =>
    (load_lines os.getenv (content.length + 1) content g).bind fun g1 =>
      some (g1, print_summary w g1)

/-! ## The heartbeat loop (lines 150-165) -/

/-- One turn of the `while (running)` loop: the data file is rewritten when it can
be opened, then the process sleeps; `sleep` takes an `unsigned int`. -/
def heartbeat (os : OS) (g : Settings) (data_path : List Char) (w : World) : World :=
  let w1 :=
    if os.fopen_w w.trace.length data_path then
      w.put data_path ("Last update: ".toList ++ os.ctime w.trace.length)
    else w
  w1.log (Event.sleep (g.run_interval % 4294967296).toNat)

/-- The world after `n` turns of the loop. -/
def heartbeats (os : OS) (g : Settings) (data_path : List Char) : Nat → World → World
  | 0, w => w
  | n + 1, w => heartbeats os g data_path n (heartbeat os g data_path w)

/-- The function `daemon_loop(data_path)`: the world when it returns, `none` when
`running` is never cleared. -/
def daemon_loop (os : OS) (g : Settings) (data_path : List Char) (w : World) :
    Option World :=
  let w1 := (w.log (Event.signal SIGTERM)).log (Event.signal SIGINT)
  match os.turns with
  | none => none
  | some n => some ((heartbeats os g data_path n w1).remove data_path)

/-! ## The commands (lines 167-235) -/

/-- The function `start_app(pid_path, data_path)`; every path through it ends in
`exit`, or stays in the heartbeat loop. -/
def start_app (os : OS) (g : Settings) (w : World) (pid_path data_path : List Char) :
    Outcome × World :=
  let existing := read_pid w pid_path
  let probe := if existing > 0 then process_running os w existing else (false, w)
  if probe.1 then
    (Outcome.exit 1, probe.2.log
      (Event.err (APP_NAME ++ " already running (PID ".toList ++ fmt_d existing ++ ")\n".toList)))
  else
    let w1 := probe.2.log (Event.out ("Starting ".toList ++ APP_NAME ++ "...\n".toList))
    let pid := os.fork w1.trace.length
    let w2 := w1.log (Event.fork pid)
    if pid < 0 then (Outcome.exit 1, w2)
    else if pid > 0 then (Outcome.exit 0, w2)
    else
      let sid := os.setsid w2.trace.length
      let w3 := w2.log (Event.setsid sid)
      if sid < 0 then (Outcome.exit 1, w3)
      else
        let pid2 := os.fork w3.trace.length
        let w4 := w3.log (Event.fork pid2)
        if pid2 < 0 then (Outcome.exit 1, w4)
        else if pid2 > 0 then (Outcome.exit 0, w4)
        else
          let w5 := w4.log (Event.umask 0)
          let cd := os.chdir w5.trace.length "/".toList
          let w6 := w5.log (Event.chdir "/".toList cd)
          let w7 := if cd ≠ 0 then w6.log (Event.perror "chdir".toList) else w6
          let w8 := w7.log (Event.prctl_set_name "applicationRun".toList)
          match write_pid os w8 pid_path with
          | (Outcome.returned, w9) =>
            let w10 := w9.log
              (Event.out (APP_NAME ++ " started (PID ".toList ++ fmt_d os.getpid ++ ")\n".toList))
            match daemon_loop os g data_path w10 with
            | none => (Outcome.forever, w10)
            | some w11 =>
              (Outcome.exit 0,
                (remove_pid w11 pid_path).log (Event.out (APP_NAME ++ " stopped cleanly\n".toList)))
          | r => r

/-- The function `stop_app(pid_path)`. -/
def stop_app (os : OS) (w : World) (pid_path : List Char) : World :=
  let pid := read_pid w pid_path
  let probe := if pid ≤ 0 then (false, w) else process_running os w pid
  if pid ≤ 0 ∨ probe.1 = false then
    probe.2.log (Event.out (APP_NAME ++ " is not running\n".toList))
  else
    (probe.2.log (Event.kill pid SIGTERM)).log (Event.out (APP_NAME ++ " stopped\n".toList))

/-- The function `status_app(pid_path)`. -/
def status_app (os : OS) (w : World) (pid_path : List Char) : World :=
  let pid := read_pid w pid_path
  let probe := if pid > 0 then process_running os w pid else (false, w)
  if probe.1 then
    probe.2.log (Event.out (APP_NAME ++ " is running (PID ".toList ++ fmt_d pid ++ ")\n".toList))
  else
    probe.2.log (Event.out (APP_NAME ++ " is not running\n".toList))

/-- The `printf` calls of `help()`. -/
def help_text : List Event :=
  [Event.out "Usage: application <command>\n\n".toList,
   Event.out "Commands:\n".toList,
   Event.out "  start    Start background process\n".toList,
   Event.out "  stop     Stop background process\n".toList,
   Event.out "  restart  Stop then start\n".toList,
   Event.out "  status   Check if running\n".toList,
   Event.out "  help     Show this message\n".toList]

/-- The function `help()`. -/
def help (w : World) : World := { w with trace := w.trace ++ help_text }

/-! ## `main` (lines 237-290) -/

/-- The string left by `strrchr(dir, '/')` and `*last = '\0'`: the part before the
last slash, the whole string when it has none. -/
def cut_last_slash (s : List Char) : List Char :=
  if '/' ∈ s then ((s.reverse.dropWhile fun c => c != '/').drop 1).reverse else s

/-- The function `main(argc, argv)`, where `argv` has `argc` entries: the status
the process ends with and the world then; `none` when a store left a buffer or the
model ran out of fuel. -/
def main (os : OS) (w : World) (argv : List (List Char)) : Option (Outcome × World) :=
  if argv.length < 2 then some (Outcome.exit 1, help w)
  else
    match os.getenv "USER".toList with
    | none => some (Outcome.exit 1, w.log (Event.err "USER environment variable not set\n".toList))
    | some user =>
      let config_path := snprintf 512 (CONFIG_PATH user)
      (load_config os w config_path initial_settings).bind fun r =>
        let g1 := r.1
        let g2 := if cur g1.pid_file = NUL then
            { g1 with pid_file := snprintf 512 (DEFAULT_PID_FILE user) }
          else g1
        let g := if cur g2.data_file = NUL then
            { g2 with data_file := snprintf 512 (DEFAULT_DATA_FILE user) }
          else g2
        let pid_dir := cut_last_slash g.pid_file
        let data_dir := cut_last_slash g.data_file
        let config_dir := snprintf 512 ("/home/".toList ++ user ++ "/application/config".toList)
        let w1 := (ensure_dir os r.2 pid_dir).2
        let w2 := (ensure_dir os w1 data_dir).2
        let w3 := (ensure_dir os w2 config_dir).2
        let cmd := argv.getD 1 []
        if cmd = "start".toList then
          some (start_app os g w3 g.pid_file g.data_file)
        else if cmd = "stop".toList then
          some (Outcome.exit 0, stop_app os w3 g.pid_file)
        else if cmd = "restart".toList then
          let w4 := (stop_app os w3 g.pid_file).log (Event.sleep 1)
          some (start_app os g w4 g.pid_file g.data_file)
        else if cmd = "status".toList then
          some (Outcome.exit 0, status_app os w3 g.pid_file)
        else
          some (Outcome.exit 0, help w3)

/-! ### The expansion as the specification words it -/

/-- An input string cut into its parts: a character copied as it is, or a
placeholder `${NAME}`. -/
inductive Piece where
  | lit (c : Char)
  | ref (name : List Char)
  deriving DecidableEq

/-- The text of a part in the input string. -/
def Piece.render : Piece → List Char
  | .lit c => [c]
  | .ref name => '$' :: '{' :: (name ++ ['}'])

/-- The input string made of the parts `ps`. -/
def render : List Piece → List Char
  | [] => []
  | p :: ps => p.render ++ render ps

/-- The text a part stands for: the character itself, or the value of the
variable, empty when it is unset. -/
def Piece.value (getenv : List Char → Option (List Char)) : Piece → List Char
  | .lit c => [c]
  | .ref name => (getenv name).getD []

/-- The expansion as specified: every `${NAME}` replaced by the value of `NAME`,
every other character copied, nothing expanded twice. -/
def expand_spec (getenv : List Char → Option (List Char)) : List Piece → List Char
  | [] => []
  | p :: ps => p.value getenv ++ expand_spec getenv ps

/-- A part is well formed: a copied character is not the terminator, a name has
no terminator and no closing brace in it and is shorter than 128 characters. -/
def Piece.ok : Piece → Bool
  | .lit c => c != NUL
  | .ref name => !name.contains NUL && !name.contains '}' && decide (name.length < 128)

/-- Every part is well formed and every `${` of the input opens a placeholder: no
copied `$` stands right before a copied `{`. -/
def wellFormed : List Piece → Bool
  | [] => true
  | p :: ps =>
    p.ok && !(p == Piece.lit '$' && ps.head? == some (Piece.lit '{')) && wellFormed ps

/-! ### The tokens of a config line as the specification words them -/

/-- The first white-space separated token of `s`, empty when `s` has none. -/
def first_token (s : List Char) : List Char :=
  (s.dropWhile isspace).takeWhile fun c => !isspace c

/-- What follows the first token of `s`. -/
def after_token (s : List Char) : List Char :=
  (s.dropWhile isspace).dropWhile fun c => !isspace c

/-- The second token of `s`, empty when `s` has fewer than two. -/
def second_token (s : List Char) : List Char := first_token (after_token s)

/-- The third token of `s`, empty when `s` has fewer than three. -/
def third_token (s : List Char) : List Char := first_token (after_token (after_token s))

/-- A text is made of complete lines: it is empty or ends with a newline. -/
def complete_lines (s : List Char) : Prop := s = [] ∨ s.getLast? = some NL

instance (s : List Char) : Decidable (complete_lines s) := by
  unfold complete_lines
  infer_instance

/-! ### Auxiliary functions of the proofs -/

/-- The characters the loop of `expand_env` produces for the input `s` when no
buffer bound stops it. -/
def emit (getenv : List Char → Option (List Char)) : Nat → List Char → List Char
  | 0, _ => []
  | fuel + 1, s =>
    if cur s ≠ NUL then
      if cur s = '$' ∧ cur (s.drop 1) = '{' then
        let r := scan_var (s.drop 2) 0
        let s' := if cur r.2 = '}' then r.2.drop 1 else r.2
        (match getenv r.1 with
          | some val => cstr val
          | none => []) ++ emit getenv fuel s'
      else cur s :: emit getenv fuel (s.drop 1)
    else []

/-! ## Concrete surroundings for the examples -/

/-- An operating system with the user `alice` and `FOO=baz`, in which every call
succeeds, `fork` answers as in the child, the running process has the number 4242
and the heartbeat loop is stopped after one turn. -/
def os_alice : OS :=
  { getenv := fun n =>
      if n = "USER".toList then some "alice".toList
      else if n = "FOO".toList then some "baz".toList else none,
    kill := fun _ _ _ => 0,
    fork := fun _ => 0,
    setsid := fun _ => 0,
    chdir := fun _ _ => 0,
    getpid := 4242,
    fopen_w := fun _ _ => true,
    stat := fun _ _ => some true,
    mkdir := fun _ _ => 0,
    ctime := fun _ => "Thu Jan  1 00:00:00 1970\n".toList,
    turns := some 1 }

/-- The input `${FOO}/bar` cut into its parts. -/
def foo_bar : List Piece :=
  [Piece.ref "FOO".toList, Piece.lit '/', Piece.lit 'b', Piece.lit 'a', Piece.lit 'r']

/-- The default PID file of `alice`. -/
def pid_path_alice : List Char := "/home/alice/application/run/application.pid".toList

/-- The config file of `alice`. -/
def config_path_alice : List Char := "/home/alice/application/config/CONFIG_FILE".toList

/-- A world without files. -/
def world_empty : World := { files := fun _ => none, trace := [] }

/-- A world whose only file is the PID file of `alice`, holding `4242`. -/
def world_running : World :=
  { files := fun q => if q = pid_path_alice then some "4242\n".toList else none, trace := [] }

/-- A world whose only file is the config file of `alice` with the given content. -/
def world_config (content : List Char) : World :=
  { files := fun q => if q = config_path_alice then some content else none, trace := [] }

/-! # Theorems -/

/-! ## Environment expansion -/

theorem scan_var_length (s : List Char) (vi : Nat) :
    (scan_var s vi).2.length ≤ s.length := by
  induction s generalizing vi with
  | nil => simp [scan_var]
  | cons c rest ih =>
    simp only [scan_var]
    split
    · have := ih (vi + 1)
      simp only [List.length_cons]
      omega
    · simp

theorem cstr_no_nul (v : List Char) : NUL ∉ cstr v := by
  intro h
  have := List.mem_takeWhile_imp h
  simp at this

theorem cstr_of_no_nul (v : List Char) (h : NUL ∉ v) : cstr v = v := by
  unfold cstr
  rw [List.takeWhile_eq_self_iff]
  intro c hc
  simp only [bne_iff_ne, ne_eq]
  rintro rfl
  exact h hc

theorem copy_val_eq (n : Nat) (val out : List Char) (h : out.length < n) :
    copy_val n val out = some (out ++ (cstr val).take (n - 1 - out.length)) := by
  induction val generalizing out with
  | nil => simp [copy_val, cstr]
  | cons c val ih =>
    simp only [copy_val]
    split
    · rename_i hc
      obtain ⟨hc1, hc2⟩ := hc
      have hst : store n out c = some (out ++ [c]) := by simp [store, h]
      rw [hst, Option.some_bind, ih (out ++ [c]) (by simp; omega)]
      have hcs : cstr (c :: val) = c :: cstr val := by
        simp [cstr, List.takeWhile_cons, hc1]
      rw [hcs]
      have hk : n - 1 - out.length = (n - 1 - (out ++ [c]).length) + 1 := by
        simp; omega
      rw [hk, List.take_succ_cons]
      simp
    · rename_i hc
      by_cases hc1 : c = NUL
      · subst hc1
        simp [cstr, List.takeWhile_cons]
      · have : n - 1 - out.length = 0 := by
          have : ¬ out.length + 1 < n := fun h2 => hc ⟨hc1, h2⟩
          omega
        simp [this]

/-- The loop of `expand_env` stores the first `out_size - 1` characters of the
unbounded output and never runs out of fuel. -/
theorem expand_loop_eq (getenv : List Char → Option (List Char)) (n : Nat) :
    ∀ (fuel : Nat) (s out : List Char), s.length < fuel → out.length < n →
      expand_loop getenv n fuel s out =
        some (out ++ (emit getenv fuel s).take (n - 1 - out.length)) := by
  intro fuel
  induction fuel with
  | zero => intro s out h; omega
  | succ fuel ih =>
    intro s out hs ho
    simp only [expand_loop, emit]
    by_cases hnul : cur s = NUL
    · simp [hnul]
    · by_cases hroom : out.length + 1 < n
      · rw [if_pos ⟨hnul, hroom⟩, if_pos hnul]
        have hne : s ≠ [] := by
          rintro rfl
          exact hnul rfl
        obtain ⟨c, rest, rfl⟩ := List.exists_cons_of_ne_nil hne
        split
        · -- a placeholder
          have hlen := scan_var_length (List.drop 2 (c :: rest)) 0
          have hd : (List.drop 2 (c :: rest)).length ≤ rest.length := by
            simp
          have hs' : (if cur (scan_var (List.drop 2 (c :: rest)) 0).2 = '}'
              then (scan_var (List.drop 2 (c :: rest)) 0).2.drop 1
              else (scan_var (List.drop 2 (c :: rest)) 0).2).length < fuel := by
            simp only [List.length_cons] at hs
            split
            · simp only [List.length_drop]; omega
            · omega
          cases hg : getenv (scan_var (List.drop 2 (c :: rest)) 0).1 with
          | none =>
            simp only [List.nil_append]
            exact ih _ _ hs' ho
          | some val =>
            simp only []
            rw [copy_val_eq n val out ho, Option.some_bind, ih _ _ hs' (by simp; omega)]
            congr 1
            rw [List.append_assoc]
            congr 1
            rw [List.take_append_eq_append_take]
            congr 2
            simp
            omega
        · have hst : store n out (cur (c :: rest)) = some (out ++ [cur (c :: rest)]) := by
            simp [store, ho]
          rw [hst, Option.some_bind, ih _ _ (by simpa using hs) (by simp; omega)]
          have hk : n - 1 - out.length = (n - 1 - (out ++ [cur (c :: rest)]).length) + 1 := by
            simp; omega
          rw [hk, List.take_succ_cons]
          simp
      · have hz : n - 1 - out.length = 0 := by omega
        have : ¬ (cur s ≠ NUL ∧ out.length + 1 < n) := fun h => hroom h.2
        rw [if_neg this, hz]
        simp

theorem emit_no_nul (getenv : List Char → Option (List Char)) :
    ∀ (fuel : Nat) (s : List Char), NUL ∉ emit getenv fuel s := by
  intro fuel
  induction fuel with
  | zero => intro s; simp [emit]
  | succ fuel ih =>
    intro s
    simp only [emit]
    split
    · rename_i hnul
      split
      · rw [List.mem_append]
        rintro (h | h)
        · split at h
          · exact cstr_no_nul _ h
          · simp at h
        · exact ih _ h
      · rw [List.mem_cons]
        rintro (h | h)
        · exact hnul h.symm
        · exact ih _ h
    · simp

/-- The function `expand_env` never fails when the buffer has room for the
terminator, and leaves the first `out_size - 1` characters of the unbounded
output. -/
theorem expand_env_eq (getenv : List Char → Option (List Char)) (inp : List Char)
    (n : Nat) (h : 1 ≤ n) :
    expand_env getenv inp n = some ((emit getenv (inp.length + 1) inp).take (n - 1)) := by
  unfold expand_env
  rw [expand_loop_eq getenv n _ inp [] (by omega) (by simpa using h)]
  simp only [List.nil_append, List.length_nil, Nat.sub_zero, Option.some_bind]
  rw [if_pos]
  rw [List.length_take]
  omega

theorem scan_var_name (name rest : List Char) (vi : Nat) (h0 : NUL ∉ name)
    (h1 : '}' ∉ name) (h2 : vi + name.length < VAR_SIZE) :
    scan_var (name ++ '}' :: rest) vi = (name, '}' :: rest) := by
  induction name generalizing vi with
  | nil => simp [scan_var]
  | cons c name ih =>
    simp only [List.mem_cons, not_or] at h0 h1
    simp only [List.length_cons] at h2
    rw [List.cons_append, scan_var,
      if_pos ⟨fun h => h0.1 h.symm, fun h => h1.1 h.symm, by omega⟩]
    simp only [ih (vi + 1) h0.2 h1.2 (by omega)]

theorem cur_render_brace (ps : List Piece) (h : cur (render ps) = '{') :
    ps.head? = some (Piece.lit '{') := by
  cases ps with
  | nil => exact absurd h (by decide)
  | cons p ps =>
    cases p with
    | lit c =>
      simp only [render, Piece.render, cur, List.singleton_append, List.headD_cons] at h
      simp [h]
    | ref name =>
      simp only [render, Piece.render, cur, List.cons_append, List.headD_cons] at h
      exact absurd h (by decide)

/-- On an input made of well-formed parts the unbounded output of the loop is the
specified expansion. -/
theorem emit_render (getenv : List Char → Option (List Char))
    (henv : ∀ n v, getenv n = some v → NUL ∉ v) :
    ∀ (ps : List Piece) (fuel : Nat), wellFormed ps = true → (render ps).length < fuel →
      emit getenv fuel (render ps) = expand_spec getenv ps := by
  intro ps
  induction ps with
  | nil =>
    intro fuel _ hf
    cases fuel with
    | zero => simp [emit, expand_spec]
    | succ fuel => simp [emit, expand_spec, render, cur]
  | cons p ps ih =>
    intro fuel hwf hf
    cases fuel with
    | zero => omega
    | succ fuel =>
      simp only [wellFormed, Bool.and_eq_true, Bool.not_eq_true', Bool.and_eq_false_imp,
        beq_iff_eq] at hwf
      obtain ⟨⟨hok, hadj⟩, hrest⟩ := hwf
      cases p with
      | lit c =>
        simp only [Piece.ok, bne_iff_ne, ne_eq] at hok
        simp only [render, Piece.render, List.singleton_append, List.length_cons] at hf ⊢
        simp only [emit, cur, List.headD_cons, List.drop_one, List.tail_cons]
        rw [if_pos hok, if_neg, ih fuel hrest (by omega)]
        · simp [expand_spec, Piece.value]
        · rintro ⟨hc, hb⟩
          subst hc
          have := cur_render_brace ps hb
          have h2 := hadj rfl
          simp [this] at h2
      | ref name =>
        simp only [Piece.ok, Bool.and_eq_true, Bool.not_eq_true', decide_eq_true_eq] at hok
        obtain ⟨⟨hn0, hn1⟩, hn2⟩ := hok
        have hn0' : NUL ∉ name := by simpa using hn0
        have hn1' : '}' ∉ name := by simpa using hn1
        simp only [render, Piece.render, List.cons_append, List.length_cons,
          List.length_append, List.append_assoc, List.singleton_append] at hf ⊢
        simp only [emit, cur, List.headD_cons, List.drop_succ_cons, List.drop_zero,
          List.nil_append]
        rw [scan_var_name name (render ps) 0 hn0' hn1' (by simpa [VAR_SIZE] using hn2)]
        have hd : ¬ ('$' = NUL) := by decide
        simp only [List.headD_cons, if_true, List.drop_succ_cons, List.drop_zero, hd,
          if_false, ne_eq, not_false_eq_true]
        rw [ih fuel hrest (by omega)]
        simp only [expand_spec, Piece.value]
        cases hg : getenv name with
        | none => rfl
        | some v => simp [cstr_of_no_nul v (henv name v hg)]

/-- C6.  For an input whose parts are characters copied as they are and well-formed
placeholders `${NAME}` (NAME shorter than 128 characters), any environment and an
output buffer with room for the result and its terminator, `expand_env` leaves in
the buffer the input with every `${NAME}` replaced by the value of NAME (nothing
when NAME is unset) and every other character unchanged; the values are inserted as
they are and not expanded again. -/
theorem expand_env_spec (getenv : List Char → Option (List Char)) (ps : List Piece)
    (out_size : Nat) (hwf : wellFormed ps = true)
    (henv : ∀ n v, getenv n = some v → NUL ∉ v)
    (hsize : (expand_spec getenv ps).length < out_size) :
    expand_env getenv (render ps) out_size = some (expand_spec getenv ps) := by
  rw [expand_env_eq getenv (render ps) out_size (by omega),
    emit_render getenv henv ps _ hwf (by omega)]
  rw [List.take_of_length_le (by omega)]

/-- C10.  For every input, environment and `out_size >= 1`, `expand_env` stores
only at indices below `out_size` (the model returns a result), and the string it
leaves has at most `out_size - 1` characters before the terminator, none of them
NUL.  There is a full result, which the same call leaves in every buffer with room
for it, and the string left is its first `out_size - 1` characters: truncation only
cuts the tail. -/
theorem expand_env_bounded (getenv : List Char → Option (List Char)) (inp : List Char)
    (out_size : Nat) (h : 1 ≤ out_size) :
    ∃ r full, expand_env getenv inp out_size = some r ∧ r.length ≤ out_size - 1 ∧ NUL ∉ r ∧
      (∀ m, full.length < m → expand_env getenv inp m = some full) ∧
      r = full.take (out_size - 1) ∧ r <+: full := by
  refine ⟨_, emit getenv (inp.length + 1) inp, expand_env_eq getenv inp out_size h,
    ?_, ?_, ?_, rfl, List.take_prefix _ _⟩
  · rw [List.length_take]
    omega
  · intro hmem
    exact emit_no_nul getenv _ _ (List.mem_of_mem_take hmem)
  · intro m hm
    rw [expand_env_eq getenv inp m (by omega), List.take_of_length_le (by omega)]

/-! ## PID registry -/

theorem isdigit_digitChar (d : Nat) (h : d < 10) :
    isdigit (Nat.digitChar d) = true ∧ (Nat.digitChar d).toNat - 48 = d := by
  interval_cases d <;> decide

theorem isdigit_not_sign (c : Char) (h : isdigit c = true) :
    c ≠ '-' ∧ c ≠ '+' ∧ isspace c = false := by
  refine ⟨?_, ?_, ?_⟩
  · rintro rfl
    exact absurd h (by decide)
  · rintro rfl
    exact absurd h (by decide)
  · simp only [isdigit, Bool.and_eq_true, decide_eq_true_eq] at h
    simp only [isspace, Bool.or_eq_false_iff, beq_eq_false_iff_ne, ne_eq, Bool.and_eq_false_imp,
      decide_eq_true_eq, decide_eq_false_iff_not, not_le]
    omega

theorem fmt_u_digits (fuel n : Nat) : ∀ c ∈ fmt_u fuel n, isdigit c = true := by
  induction fuel generalizing n with
  | zero => simp [fmt_u]
  | succ fuel ih =>
    intro c hc
    simp only [fmt_u] at hc
    split at hc
    · rename_i hn
      simp only [List.mem_singleton] at hc
      subst hc
      exact (isdigit_digitChar n hn).1
    · simp only [List.mem_append, List.mem_singleton] at hc
      rcases hc with hc | hc
      · exact ih _ c hc
      · subst hc
        exact (isdigit_digitChar (n % 10) (Nat.mod_lt _ (by decide))).1

theorem fmt_u_ne_nil (fuel n : Nat) : fmt_u (fuel + 1) n ≠ [] := by
  simp only [fmt_u]
  split <;> simp

theorem parse_digits_fmt_u (fuel : Nat) :
    ∀ (n acc : Nat) (rest : List Char), n < fuel →
      parse_digits (fmt_u fuel n ++ rest) acc =
        parse_digits rest (acc * 10 ^ (fmt_u fuel n).length + n) := by
  induction fuel with
  | zero => intro n acc rest h; omega
  | succ fuel ih =>
    intro n acc rest h
    simp only [fmt_u]
    split
    · rename_i hn
      obtain ⟨h1, h2⟩ := isdigit_digitChar n hn
      simp [parse_digits, h1, h2]
    · rename_i hn
      obtain ⟨h1, h2⟩ := isdigit_digitChar (n % 10) (Nat.mod_lt _ (by decide))
      rw [List.append_assoc, ih (n / 10) acc _ (by omega)]
      simp only [List.singleton_append, parse_digits, h1, if_true, h2, List.length_append,
        List.length_singleton]
      congr 1
      rw [pow_succ]
      have := Nat.div_add_mod n 10
      nlinarith [this]

/-- Reading back with `%d` what `%d` and a newline wrote gives the number. -/
theorem scanf_d_fmt_d (p : Int) (h0 : 0 ≤ p) (h1 : p < 2147483648) :
    scanf_d (fmt_d p ++ [NL]) = some p := by
  obtain ⟨n, rfl⟩ := Int.eq_ofNat_of_zero_le h0
  have hne := fmt_u_ne_nil n n
  obtain ⟨d, tl, hd⟩ := List.exists_cons_of_ne_nil hne
  have hdig : isdigit d = true := fmt_u_digits (n + 1) n d (by rw [hd]; simp)
  obtain ⟨hm, hp, hs⟩ := isdigit_not_sign d hdig
  have hval := parse_digits_fmt_u (n + 1) n 0 [NL] (by omega)
  have hnl : parse_digits [NL] (0 * 10 ^ (fmt_u (n + 1) n).length + n) = n := by
    simp [parse_digits, show isdigit NL = false by decide]
  rw [hnl, hd] at hval
  have hfmt : fmt_d (n : Int) = d :: tl := by
    simp [fmt_d, hd]
  simp only [scanf_d, scan_int, hfmt, List.cons_append, List.dropWhile_cons, hs, cur,
    List.headD_cons, hm, hp, or_self, if_false, hdig, if_true, Option.map_some',
    Bool.false_eq_true]
  have hv : parse_digits (d :: (tl ++ [NL])) 0 = n := hval
  rw [hv]
  simp only [to_long, to_int, Option.some.injEq]
  have : (n : Int) < 2147483648 := h1
  split_ifs <;> omega

/-- C2.  For a number `p <= 1` the function `process_running` returns false
without issuing the probe (the world, with its events, is as before); for `p > 1`
it issues the probe `kill(p, 0)` once and returns true exactly when the probe
answers 0. -/
theorem process_running_spec (os : OS) (w : World) (p : Int) :
    (p ≤ 1 → process_running os w p = (false, w)) ∧
    (1 < p →
      ((process_running os w p).1 = true ↔ os.kill w.trace.length p 0 = 0) ∧
      (process_running os w p).2 = w.log (Event.kill p 0)) := by
  constructor
  · intro h
    simp [process_running, show ¬ p > 1 by omega]
  · intro h
    simp [process_running, show p > 1 by omega]

/-- C3.  When the process with the number `p` (positive, 32 bits) runs `write_pid`
on a path and the file can be opened, the file then holds the decimal text of `p`
and a newline, and `read_pid` on that path returns `p`. -/
theorem write_pid_read_pid (os : OS) (w : World) (path : List Char)
    (hpos : 0 < os.getpid) (h32 : os.getpid < 2147483648)
    (hw : (write_pid os w path).1 = Outcome.returned) :
    (write_pid os w path).2.files path = some (fmt_d os.getpid ++ [NL]) ∧
    read_pid (write_pid os w path).2 path = os.getpid := by
  unfold write_pid at hw ⊢
  split at hw
  · rename_i hopen
    simp only [hopen, if_true, read_pid, World.put]
    simp [scanf_d_fmt_d os.getpid (by omega) h32]
  · simp at hw

/-- C1.  When the PID file parses to a number `p > 1` and the probe of `p` answers
0, `start_app` ends the process with status 1 after the message "already running
(PID p)" on the error stream; the probe and the message are its only events (no
fork, no write, no heartbeat) and the files are as before. -/
theorem start_app_already_running (os : OS) (g : Settings) (w : World)
    (pid_path data_path : List Char) (p : Int)
    (hread : read_pid w pid_path = p) (hp : 1 < p)
    (hprobe : os.kill w.trace.length p 0 = 0) :
    start_app os g w pid_path data_path =
      (Outcome.exit 1,
        { files := w.files,
          trace := w.trace ++ [Event.kill p 0,
            Event.err (APP_NAME ++ " already running (PID ".toList ++ fmt_d p ++ ")\n".toList)] }) := by
  simp [start_app, hread, process_running, show p > 0 by omega, show p > 1 by omega, hprobe,
    World.log]

/-- C4.  With `p` the number `read_pid` gives: when `p > 1` and the probe of `p`
answers 0, `stop_app` issues the probe, sends SIGTERM once, to `p`, reports
"stopped" and returns, with no wait in between; in every other case it sends no
signal (at most the probe, which delivers none), reports "not running" and returns.
The files are as before, and no `kill` is issued for a number that is not above 1. -/
theorem stop_app_spec (os : OS) (w : World) (pid_path : List Char) :
    ∃ evs, stop_app os w pid_path = { files := w.files, trace := w.trace ++ evs } ∧
      (if 1 < read_pid w pid_path ∧ os.kill w.trace.length (read_pid w pid_path) 0 = 0 then
        evs = [Event.kill (read_pid w pid_path) 0, Event.kill (read_pid w pid_path) SIGTERM,
          Event.out (APP_NAME ++ " stopped\n".toList)]
      else
        (evs = [Event.out (APP_NAME ++ " is not running\n".toList)] ∨
         evs = [Event.kill (read_pid w pid_path) 0,
          Event.out (APP_NAME ++ " is not running\n".toList)])) ∧
      ∀ q sig, Event.kill q sig ∈ evs → q = read_pid w pid_path ∧ 1 < q := by
  generalize hpid : read_pid w pid_path = p
  by_cases h0 : p ≤ 0
  · refine ⟨[Event.out (APP_NAME ++ " is not running\n".toList)], ?_, ?_, ?_⟩
    · simp [stop_app, hpid, h0, World.log]
    · rw [if_neg (by omega)]
      exact Or.inl rfl
    · simp
  · by_cases h1 : p = 1
    · subst h1
      refine ⟨[Event.out (APP_NAME ++ " is not running\n".toList)], ?_, ?_, ?_⟩
      · simp [stop_app, hpid, process_running, World.log]
      · simp
      · simp
    · have hgt : 1 < p := by omega
      by_cases hk : os.kill w.trace.length p 0 = 0
      · refine ⟨[Event.kill p 0, Event.kill p SIGTERM,
          Event.out (APP_NAME ++ " stopped\n".toList)], ?_, ?_, ?_⟩
        · simp [stop_app, hpid, h0, process_running, hgt, hk, World.log]
        · rw [if_pos ⟨hgt, hk⟩]
        · intro q sig hq
          simp only [List.mem_cons, Event.kill.injEq, List.mem_singleton, reduceCtorEq,
            or_false, List.not_mem_nil] at hq
          rcases hq with ⟨rfl, _⟩ | ⟨rfl, _⟩ <;> exact ⟨rfl, hgt⟩
      · refine ⟨[Event.kill p 0, Event.out (APP_NAME ++ " is not running\n".toList)], ?_, ?_, ?_⟩
        · simp [stop_app, hpid, h0, process_running, hgt, hk, World.log]
        · rw [if_neg (fun h => hk h.2)]
          exact Or.inr rfl
        · intro q sig hq
          simp only [List.mem_cons, Event.kill.injEq, List.mem_singleton, reduceCtorEq,
            or_false, List.not_mem_nil] at hq
          obtain ⟨rfl, _⟩ := hq
          exact ⟨rfl, hgt⟩

/-! ## Config loader -/

theorem dropWhile_isspace_twice (s : List Char) :
    (s.dropWhile isspace).dropWhile isspace = s.dropWhile isspace := by
  induction s with
  | nil => rfl
  | cons c s ih =>
    by_cases h : isspace c = true
    · simp [List.dropWhile_cons, h, ih]
    · simp [List.dropWhile_cons, h]

theorem drop_length_takeWhile (q : Char → Bool) (s : List Char) :
    s.drop (s.takeWhile q).length = s.dropWhile q := by
  induction s with
  | nil => rfl
  | cons c s ih =>
    by_cases h : q c = true
    · simp [List.takeWhile_cons, List.dropWhile_cons, h, ih]
    · simp [List.takeWhile_cons, List.dropWhile_cons, h]

theorem take_eq_of_short (l k : List Char) (n : Nat) (h : l.take n = k) (hk : k.length < n) :
    l = k := by
  have hl : (l.take n).length = k.length := by rw [h]
  rw [List.length_take] at hl
  have : l.length ≤ n := by omega
  rw [List.take_of_length_le this] at h
  exact h

theorem scan_s_eq (w : Nat) (s : List Char) :
    scan_s w s =
      if (first_token s).take w = [] then none
      else some ((first_token s).take w,
        (s.dropWhile isspace).drop ((first_token s).take w).length) := rfl

theorem first_token_dropWhile (s : List Char) :
    first_token (s.dropWhile isspace) = first_token s := by
  simp [first_token, dropWhile_isspace_twice]

/-- The result of `sscanf` on a string whose first token is at most 255 characters
long. -/
theorem sscanf_key_value_eq (s : List Char) (h : (first_token s).length ≤ 255) :
    sscanf_key_value s =
      if first_token s = [] then (-1, [], [])
      else if second_token s = [] then (1, first_token s, [])
      else (2, first_token s, (second_token s).take 511) := by
  have h1 : (first_token s).take 255 = first_token s := List.take_of_length_le h
  have h2 : (s.dropWhile isspace).drop (first_token s).length = after_token s := by
    unfold first_token after_token
    exact drop_length_takeWhile _ _
  simp only [sscanf_key_value, scan_s_eq, h1, h2]
  by_cases e1 : first_token s = []
  · simp [e1]
  · simp only [e1, if_false]
    by_cases e2 : second_token s = []
    · have : (first_token (after_token s)).take 511 = [] := by
        rw [show first_token (after_token s) = second_token s from rfl, e2]
        rfl
      simp [this, e2]
    · have : (first_token (after_token s)).take 511 ≠ [] := by
        rw [show first_token (after_token s) = second_token s from rfl]
        intro h3
        apply e2
        cases hst : second_token s with
        | nil => rfl
        | cons a b => rw [hst] at h3; simp at h3
      rw [if_neg e2, if_neg this]
      rfl


theorem after_token_dropWhile (s : List Char) :
    after_token (s.dropWhile isspace) = after_token s := by
  simp [after_token, dropWhile_isspace_twice]

theorem assign_changes (key value : List Char) (g : Settings) (h : assign key value g ≠ g) :
    key = KEY_RUN_INTERVAL ∨ key = KEY_PID_FILE ∨ key = KEY_DATA_FILE := by
  unfold assign at h
  split_ifs at h with h1 h2 h3
  · exact Or.inl h1
  · exact Or.inr (Or.inl h2)
  · exact Or.inr (Or.inr h3)
  · exact absurd rfl h

theorem key_length (key : List Char)
    (h : key = KEY_RUN_INTERVAL ∨ key = KEY_PID_FILE ∨ key = KEY_DATA_FILE) :
    key ≠ [] ∧ key.length < 255 := by
  rcases h with rfl | rfl | rfl <;> decide

theorem sscanf_key (s : List Char) (h : (sscanf_key_value s).1 = 2) :
    (sscanf_key_value s).2.1 = (first_token s).take 255 := by
  unfold sscanf_key_value at h ⊢
  rw [scan_s_eq] at h ⊢
  split_ifs at h ⊢ with h1
  · simp at h
  · simp only at h ⊢
    split at h
    · simp at h
    · rfl

theorem cur_nul_of_cstr (line : List Char)
    (h : cur ((cstr line).dropWhile isspace) = NUL) : (cstr line).dropWhile isspace = [] := by
  cases hp : (cstr line).dropWhile isspace with
  | nil => rfl
  | cons c rest =>
    rw [hp] at h
    simp only [cur, List.headD_cons] at h
    have hmem : c ∈ (cstr line).dropWhile isspace := by rw [hp]; simp
    have := (List.dropWhile_sublist isspace).subset hmem
    rw [h] at this
    exact absurd this (cstr_no_nul line)

/-- Every line is handled: the loop body of `load_config` either leaves the globals
or assigns one of them a value that does not depend on the globals. -/
theorem process_line_assign (getenv : List Char → Option (List Char)) (line : List Char) :
    ∃ key value, ∀ g, process_line getenv line g = some (assign key value g) := by
  by_cases hc : cur ((cstr line).dropWhile isspace) = '#' ∨
      cur ((cstr line).dropWhile isspace) = NUL
  · refine ⟨[], [], fun g => ?_⟩
    simp only [process_line, hc, if_true]
    rfl
  · by_cases hr : (sscanf_key_value ((cstr line).dropWhile isspace)).1 ≠ 2
    · refine ⟨[], [], fun g => ?_⟩
      simp only [process_line, hc, if_false]
      rw [if_pos hr]
      rfl
    · refine ⟨(sscanf_key_value ((cstr line).dropWhile isspace)).2.1,
        (emit getenv ((sscanf_key_value ((cstr line).dropWhile isspace)).2.2.length + 1)
          (sscanf_key_value ((cstr line).dropWhile isspace)).2.2).take (512 - 1), fun g => ?_⟩
      simp only [process_line, hc, if_false, hr]
      rw [expand_env_eq getenv _ 512 (by decide)]
      rfl

/-- The form of `process_line` on a line that is no comment and whose first token
is a recognized key. -/
theorem process_line_key (getenv : List Char → Option (List Char)) (line : List Char)
    (g : Settings) (hc : cur ((cstr line).dropWhile isspace) ≠ '#')
    (hk : first_token (cstr line) = KEY_RUN_INTERVAL ∨ first_token (cstr line) = KEY_PID_FILE ∨
      first_token (cstr line) = KEY_DATA_FILE)
    (h2 : second_token (cstr line) ≠ []) :
    process_line getenv line g =
      (expand_env getenv ((second_token (cstr line)).take 511) 512).bind fun value =>
        some (assign (first_token (cstr line)) value g) := by
  obtain ⟨hne, hlen⟩ := key_length _ hk
  have hnul : cur ((cstr line).dropWhile isspace) ≠ NUL := by
    intro h
    have hp := cur_nul_of_cstr line h
    apply hne
    simp [first_token, hp]
  have hs := sscanf_key_value_eq ((cstr line).dropWhile isspace)
    (by rw [first_token_dropWhile]; omega)
  rw [first_token_dropWhile, show second_token ((cstr line).dropWhile isspace) =
    second_token (cstr line) by simp [second_token, after_token_dropWhile]] at hs
  rw [if_neg hne, if_neg h2] at hs
  simp only [process_line, hs]
  rw [if_neg (by simp [hc, hnul])]
  simp


/-- C9 (as amended).  The loop body of `load_config` handles every line (no line
aborts the load).  It changes the globals only for a line that is no comment and
not blank, whose first token is a recognized key and which has a second token;
blank lines, comments, lines of one token and lines with an unknown key leave the
three globals as they are.  A line with a recognized key and a second token is
applied whatever follows the second token: the key is assigned the expansion of the
first 511 characters of the second token. -/
theorem process_line_spec (getenv : List Char → Option (List Char)) (line : List Char)
    (g : Settings) :
    ∃ g', process_line getenv line g = some g' ∧
      (g' ≠ g →
        cur ((cstr line).dropWhile isspace) ≠ '#' ∧
        (first_token (cstr line) = KEY_RUN_INTERVAL ∨ first_token (cstr line) = KEY_PID_FILE ∨
          first_token (cstr line) = KEY_DATA_FILE) ∧
        second_token (cstr line) ≠ []) ∧
      (cur ((cstr line).dropWhile isspace) ≠ '#' →
        (first_token (cstr line) = KEY_RUN_INTERVAL ∨ first_token (cstr line) = KEY_PID_FILE ∨
          first_token (cstr line) = KEY_DATA_FILE) →
        second_token (cstr line) ≠ [] →
        ∃ value, expand_env getenv ((second_token (cstr line)).take 511) 512 = some value ∧
          g' = assign (first_token (cstr line)) value g) := by
  obtain ⟨key, value, hkv⟩ := process_line_assign getenv line
  refine ⟨assign key value g, hkv g, ?_, ?_⟩
  · intro hne
    have hproc := hkv g
    by_cases hc : cur ((cstr line).dropWhile isspace) = '#' ∨
        cur ((cstr line).dropWhile isspace) = NUL
    · simp only [process_line, hc, if_true, Option.some.injEq] at hproc
      exact absurd hproc.symm hne
    · by_cases hr : (sscanf_key_value ((cstr line).dropWhile isspace)).1 ≠ 2
      · simp only [process_line, hc, if_false] at hproc
        rw [if_pos hr] at hproc
        exact absurd (Option.some.inj hproc).symm hne
      · simp only [process_line, hc, if_false] at hproc
        rw [if_neg hr, expand_env_eq getenv _ 512 (by decide)] at hproc
        simp only [Option.some_bind, Option.some.injEq] at hproc
        rw [← hproc] at hne
        have hkey := assign_changes _ _ _ hne
        have hr2 : (sscanf_key_value ((cstr line).dropWhile isspace)).1 = 2 := by
          simpa using hr
        rw [sscanf_key _ hr2, first_token_dropWhile] at hkey
        obtain ⟨_, hlen⟩ := key_length _ hkey
        have hft : ∀ k : List Char, (first_token (cstr line)).take 255 = k → k.length < 255 →
            first_token (cstr line) = k := fun k => take_eq_of_short _ k 255
        have hk' : first_token (cstr line) = KEY_RUN_INTERVAL ∨
            first_token (cstr line) = KEY_PID_FILE ∨ first_token (cstr line) = KEY_DATA_FILE := by
          rcases hkey with h | h | h
          · exact Or.inl (hft _ h (by decide))
          · exact Or.inr (Or.inl (hft _ h (by decide)))
          · exact Or.inr (Or.inr (hft _ h (by decide)))
        obtain ⟨hne1, hlen1⟩ := key_length _ hk'
        refine ⟨fun h => hc (Or.inl h), hk', ?_⟩
        intro h2
        have hs := sscanf_key_value_eq ((cstr line).dropWhile isspace)
          (by rw [first_token_dropWhile]; omega)
        rw [first_token_dropWhile, show second_token ((cstr line).dropWhile isspace) =
          second_token (cstr line) by simp [second_token, after_token_dropWhile]] at hs
        rw [if_neg hne1, if_pos h2] at hs
        rw [hs] at hr2
        simp at hr2
  · intro hc hk h2
    have hproc := hkv g
    rw [process_line_key getenv line g hc hk h2, expand_env_eq getenv _ 512 (by decide)] at hproc
    refine ⟨_, expand_env_eq getenv _ 512 (by decide), ?_⟩
    simpa using hproc.symm

theorem fgets_take_length (k : Nat) :
    ∀ s : List Char, (fgets_take k s).2.length ≤ s.length ∧
      (0 < k → s ≠ [] → (fgets_take k s).2.length < s.length) := by
  induction k with
  | zero => intro s; simp [fgets_take]
  | succ k ih =>
    intro s
    cases s with
    | nil => simp [fgets_take]
    | cons c rest =>
      simp only [fgets_take]
      split
      · simp
      · have := (ih rest).1
        simp only [List.length_cons]
        exact ⟨by omega, fun _ _ => by omega⟩

theorem assign_shape (key value : List Char) :
    ∃ (a : Option Int) (b c : Option (List Char)), ∀ g : Settings,
      assign key value g =
        ⟨a.getD g.run_interval, b.getD g.pid_file, c.getD g.data_file⟩ := by
  unfold assign
  split_ifs
  · exact ⟨some (atoi value), none, none, fun g => rfl⟩
  · exact ⟨none, some (snprintf 512 value), none, fun g => rfl⟩
  · exact ⟨none, none, some (snprintf 512 value), fun g => rfl⟩
  · exact ⟨none, none, none, fun g => rfl⟩

/-- With fuel above the length of the file the loop of `load_config` ends, and
each global is either left or set to a value that the file and the environment
determine. -/
theorem load_lines_shape (getenv : List Char → Option (List Char)) :
    ∀ (fuel : Nat) (stream : List Char), stream.length < fuel →
      ∃ (a : Option Int) (b c : Option (List Char)), ∀ g : Settings,
        load_lines getenv fuel stream g =
          some ⟨a.getD g.run_interval, b.getD g.pid_file, c.getD g.data_file⟩ := by
  intro fuel
  induction fuel with
  | zero => intro stream h; omega
  | succ fuel ih =>
    intro stream h
    by_cases hs : stream = []
    · subst hs
      exact ⟨none, none, none, fun g => by simp [load_lines, fgets]⟩
    · have hlt := (fgets_take_length (1024 - 1) stream).2 (by decide) hs
      obtain ⟨a2, b2, c2, h2⟩ := ih (fgets_take (1024 - 1) stream).2 (by omega)
      obtain ⟨key, value, hkv⟩ := process_line_assign getenv (fgets_take (1024 - 1) stream).1
      obtain ⟨a1, b1, c1, h1⟩ := assign_shape key value
      refine ⟨(match a2 with | some v => some v | none => a1),
        (match b2 with | some v => some v | none => b1),
        (match c2 with | some v => some v | none => c1), fun g => ?_⟩
      simp only [load_lines, fgets, hs, if_false, hkv, Option.some_bind, h2, h1]
      cases a2 <;> cases b2 <;> cases c2 <;> rfl

/-- C8.  For every file system, environment, path and initial globals,
`load_config` returns, leaves the files as they are, and a second `load_config` of
the same path right after it yields the same globals again. -/
theorem load_config_idempotent (os : OS) (w : World) (path : List Char) (g : Settings) :
    ∃ g1 w1, load_config os w path g = some (g1, w1) ∧ w1.files = w.files ∧
      ∃ w2, load_config os w1 path g1 = some (g1, w2) := by
  cases hfile : w.files path with
  | none =>
    refine ⟨g, w.log (Event.err ("Config file not found: ".toList ++ path ++ [NL])),
      by simp only [load_config, hfile], rfl, ?_⟩
    simp only [load_config, World.log, hfile]
    exact ⟨_, rfl⟩
  | some content =>
    obtain ⟨a, b, c, h⟩ := load_lines_shape os.getenv (content.length + 1) content (by omega)
    have hload : ∀ (w' : World) (g' : Settings), w'.files = w.files →
        ∃ w'', w''.files = w.files ∧ load_config os w' path g' =
          some (⟨a.getD g'.run_interval, b.getD g'.pid_file, c.getD g'.data_file⟩, w'') := by
      intro w' g' hw'
      refine ⟨print_summary w' ⟨a.getD g'.run_interval, b.getD g'.pid_file,
        c.getD g'.data_file⟩, ?_, ?_⟩
      · simpa [print_summary, World.log] using hw'
      · simp only [load_config, hw', hfile, h, Option.some_bind]
    obtain ⟨w1, hw1, h1⟩ := hload w g rfl
    obtain ⟨w2, _, h2⟩ := hload w1 _ hw1
    refine ⟨_, w1, h1, hw1, w2, ?_⟩
    rw [h2]
    cases a <;> cases b <;> cases c <;> rfl

theorem takeWhile_append_stop (q : Char → Bool) (a : List Char) (b : Char) (r : List Char)
    (ha : ∀ c ∈ a, q c = true) (hb : q b = false) :
    (a ++ b :: r).takeWhile q = a ∧ (a ++ b :: r).dropWhile q = b :: r := by
  induction a with
  | nil => simp [List.takeWhile_cons, List.dropWhile_cons, hb]
  | cons c a ih =>
    have hc := ha c (by simp)
    have := ih (fun x hx => ha x (by simp [hx]))
    simp [List.takeWhile_cons, List.dropWhile_cons, hc, this]

theorem fgets_take_line (l : List Char) (hnl : NL ∉ l) :
    ∀ k, l.length < k → fgets_take k (l ++ [NL]) = (l ++ [NL], []) := by
  induction l with
  | nil =>
    intro k hk
    cases k with
    | zero => omega
    | succ k => simp [fgets_take]
  | cons c l ih =>
    intro k hk
    simp only [List.mem_cons, not_or] at hnl
    cases k with
    | zero => omega
    | succ k =>
      simp only [List.length_cons] at hk
      rw [List.cons_append, fgets_take, if_neg (fun h => hnl.1 h.symm)]
      simp only [ih hnl.2 k (by omega)]

/-- The tokens of a line that consists of the interval key, a blank, a value
without white space and a newline. -/
theorem interval_line_tokens (v : List Char) (hne : v ≠ [])
    (hv : ∀ c ∈ v, isspace c = false ∧ c ≠ NUL) :
    cstr (KEY_RUN_INTERVAL ++ ' ' :: (v ++ [NL])) = KEY_RUN_INTERVAL ++ ' ' :: (v ++ [NL]) ∧
    cur ((KEY_RUN_INTERVAL ++ ' ' :: (v ++ [NL])).dropWhile isspace) ≠ '#' ∧
    first_token (KEY_RUN_INTERVAL ++ ' ' :: (v ++ [NL])) = KEY_RUN_INTERVAL ∧
    second_token (KEY_RUN_INTERVAL ++ ' ' :: (v ++ [NL])) = v := by
  have hK : KEY_RUN_INTERVAL = 'A' :: "PPLICATION_RUN_INTERVAL".toList := by decide
  have hdrop : (KEY_RUN_INTERVAL ++ ' ' :: (v ++ [NL])).dropWhile isspace =
      KEY_RUN_INTERVAL ++ ' ' :: (v ++ [NL]) := by
    rw [hK, List.cons_append, List.dropWhile_cons, if_neg (by decide)]
  have hKq : ∀ c ∈ KEY_RUN_INTERVAL, (!isspace c) = true := by decide
  obtain ⟨ht, hd⟩ := takeWhile_append_stop (fun c => !isspace c) KEY_RUN_INTERVAL ' '
    (v ++ [NL]) hKq (by decide)
  have hnul : NUL ∉ KEY_RUN_INTERVAL ++ ' ' :: (v ++ [NL]) := by
    intro hmem
    rw [List.mem_append, List.mem_cons, List.mem_append, List.mem_singleton] at hmem
    rcases hmem with h | h | h | h
    · exact absurd h (by decide)
    · exact absurd h (by decide)
    · exact (hv NUL h).2 rfl
    · exact absurd h (by decide)
  obtain ⟨c, v', rfl⟩ := List.exists_cons_of_ne_nil hne
  have hvq : ∀ x ∈ c :: v', (!isspace x) = true := fun x hx => by simp [(hv x hx).1]
  obtain ⟨ht2, _⟩ := takeWhile_append_stop (fun c => !isspace c) (c :: v') NL [] hvq (by decide)
  refine ⟨cstr_of_no_nul _ hnul, ?_, ?_, ?_⟩
  · rw [hdrop, hK]
    simp only [List.cons_append, cur, List.headD_cons]
    decide
  · simp only [first_token, hdrop]
    exact ht
  · simp only [second_token, after_token, first_token, hdrop, hd]
    rw [List.dropWhile_cons, if_pos (by decide), List.cons_append, List.dropWhile_cons,
      if_neg (by simp [(hv c (by simp)).1])]
    exact ht2

theorem load_lines_nil (getenv : List Char → Option (List Char)) (fuel : Nat) (g : Settings)
    (h : 0 < fuel) : load_lines getenv fuel [] g = some g := by
  cases fuel with
  | zero => omega
  | succ fuel => simp [load_lines, fgets]

theorem fgets_take_complete (pre rest : List Char) (hpre : ∃ l, pre = l ++ [NL]) :
    ∀ k, fgets_take k (pre ++ rest) = ((fgets_take k pre).1, (fgets_take k pre).2 ++ rest) ∧
      complete_lines (fgets_take k pre).2 := by
  induction pre with
  | nil =>
    obtain ⟨l, hl⟩ := hpre
    simp at hl
  | cons c pre ih =>
    intro k
    cases k with
    | zero =>
      obtain ⟨l, hl⟩ := hpre
      exact ⟨by simp [fgets_take],
        Or.inr (List.getLast?_eq_some_iff.mpr ⟨l, by simpa [fgets_take] using hl⟩)⟩
    | succ k =>
      obtain ⟨l, hl⟩ := hpre
      by_cases hc : c = NL
      · refine ⟨by simp [fgets_take, hc], ?_⟩
        simp only [fgets_take, hc, if_true]
        cases l with
        | nil =>
          left
          simp only [List.nil_append, List.cons.injEq] at hl
          exact hl.2
        | cons a l =>
          right
          exact List.getLast?_eq_some_iff.mpr ⟨l, by simpa using List.tail_eq_of_cons_eq hl⟩
      · have hpre' : ∃ l', pre = l' ++ [NL] := by
          cases l with
          | nil =>
            simp only [List.nil_append, List.cons.injEq] at hl
            exact absurd hl.1 hc
          | cons a l => exact ⟨l, by simpa using List.tail_eq_of_cons_eq hl⟩
        obtain ⟨h1, h2⟩ := ih hpre' k
        rw [List.cons_append, fgets_take, fgets_take, if_neg hc, if_neg hc]
        simp only [h1]
        exact ⟨trivial, h2⟩

/-- A last line that `fgets` delivers whole decides what the loop of `load_config`
leaves, whatever complete lines stand before it. -/
theorem load_lines_last_line (getenv : List Char → Option (List Char)) (line : List Char)
    (f : Settings → Settings) (hline : ∀ g, process_line getenv line g = some (f g))
    (hfg : fgets 1024 line = some (line, [])) :
    ∀ (fuel : Nat) (pre : List Char) (g : Settings), complete_lines pre →
      (pre ++ line).length < fuel →
      ∃ g0, load_lines getenv fuel (pre ++ line) g = some (f g0) := by
  have hline_ne : line ≠ [] := by
    rintro rfl
    simp [fgets] at hfg
  intro fuel
  induction fuel with
  | zero => intro pre g _ h; omega
  | succ fuel ih =>
    intro pre g hpre hlen
    rcases hpre with rfl | hpre
    · refine ⟨g, ?_⟩
      have hpos : 0 < fuel := by
        have : 0 < line.length := List.length_pos.mpr hline_ne
        simp only [List.nil_append] at hlen
        omega
      rw [List.nil_append, load_lines]
      simp only [hfg, hline, Option.some_bind]
      exact load_lines_nil getenv fuel _ hpos
    · have hpre := List.getLast?_eq_some_iff.mp hpre
      have hne : pre ≠ [] := by
        obtain ⟨l, rfl⟩ := hpre
        simp
      obtain ⟨h1, h2⟩ := fgets_take_complete pre line hpre (1024 - 1)
      have hlt := (fgets_take_length (1024 - 1) pre).2 (by decide) hne
      obtain ⟨key, value, hkv⟩ := process_line_assign getenv (fgets_take (1024 - 1) pre).1
      obtain ⟨g0, hg0⟩ := ih (fgets_take (1024 - 1) pre).2 (assign key value g) h2
        (by simp only [List.length_append] at hlen ⊢; omega)
      refine ⟨g0, ?_⟩
      rw [load_lines]
      simp only [fgets, List.append_eq_nil, hne, false_and, if_false, h1, hkv,
        Option.some_bind, hg0]

theorem load_config_total (os : OS) (w : World) (path : List Char) (g : Settings) :
    ∃ r, load_config os w path g = some r := by
  cases hfile : w.files path with
  | none =>
    simp only [load_config, hfile]
    exact ⟨_, rfl⟩
  | some content =>
    obtain ⟨a, b, c, h⟩ := load_lines_shape os.getenv (content.length + 1) content (by omega)
    simp only [load_config, hfile, h, Option.some_bind]
    exact ⟨_, rfl⟩

/-- C5 (as amended).  Without an argument `main` prints the usage text and returns
1.  With `USER` set and a first argument other than `start` and `restart`, `main`
returns 0: for `stop` (running or not), for `status`, for `help` and for every
unrecognized command; for `help` and an unrecognized command the usage text is the
last thing printed. -/
theorem main_exit_status (os : OS) (w : World) (argv : List (List Char)) :
    (argv.length < 2 → main os w argv = some (Outcome.exit 1, help w)) ∧
    (2 ≤ argv.length → os.getenv "USER".toList ≠ none →
      argv.getD 1 [] ≠ "start".toList → argv.getD 1 [] ≠ "restart".toList →
      ∃ w', main os w argv = some (Outcome.exit 0, w') ∧
        (argv.getD 1 [] ≠ "stop".toList → argv.getD 1 [] ≠ "status".toList →
          ∃ w3, w' = help w3)) := by
  constructor
  · intro h
    simp only [main, h, if_true]
  · intro hlen huser hstart hrestart
    obtain ⟨user, hu⟩ := Option.ne_none_iff_exists'.mp huser
    obtain ⟨r, hload⟩ := load_config_total os w (snprintf 512 (CONFIG_PATH user))
      initial_settings
    simp only [main, show ¬ argv.length < 2 by omega, if_false, hu, hload, Option.some_bind,
      if_neg hstart, if_neg hrestart]
    by_cases hstop : argv.getD 1 [] = "stop".toList
    · rw [if_pos hstop]
      exact ⟨_, rfl, fun h => absurd hstop h⟩
    · rw [if_neg hstop]
      by_cases hstatus : argv.getD 1 [] = "status".toList
      · rw [if_pos hstatus]
        exact ⟨_, rfl, fun _ h => absurd hstatus h⟩
      · rw [if_neg hstatus]
        exact ⟨_, rfl, fun _ _ => ⟨_, rfl⟩⟩

/-! ## The theorems at concrete inputs -/

/-- The events of `application start` for `alice` in a world without files, when
every call succeeds and one signal ends the heartbeat loop after its first turn. -/
theorem main_start_events :
    (main os_alice world_empty ["application".toList, "start".toList]).map
        (fun r => (r.1, r.2.trace)) =
      some (Outcome.exit 0,
        [Event.err "Config file not found: /home/alice/application/config/CONFIG_FILE\n".toList,
         Event.stat "/home/alice/application/run".toList,
         Event.stat "/home/alice/application/run".toList,
         Event.stat "/home/alice/application/config".toList,
         Event.out "Starting APPLICATION...\n".toList,
         Event.fork 0, Event.setsid 0, Event.fork 0, Event.umask 0,
         Event.chdir "/".toList 0,
         Event.prctl_set_name "applicationRun".toList,
         Event.write_file "/home/alice/application/run/application.pid".toList "4242\n".toList,
         Event.out "APPLICATION started (PID 4242)\n".toList,
         Event.signal 15, Event.signal 2,
         Event.write_file "/home/alice/application/run/application.data".toList
           "Last update: Thu Jan  1 00:00:00 1970\n".toList,
         Event.sleep 5,
         Event.unlink "/home/alice/application/run/application.data".toList,
         Event.unlink "/home/alice/application/run/application.pid".toList,
         Event.out "APPLICATION stopped cleanly\n".toList]) := by
  decide

theorem start_app_already_running_witness :
    read_pid world_running pid_path_alice = 4242 ∧
    os_alice.kill world_running.trace.length 4242 0 = 0 ∧
    start_app os_alice initial_settings world_running pid_path_alice [] =
      (Outcome.exit 1,
        { files := world_running.files,
          trace := world_running.trace ++ [Event.kill 4242 0,
            Event.err (APP_NAME ++ " already running (PID ".toList ++ fmt_d 4242 ++
              ")\n".toList)] }) :=
  ⟨by decide, by decide,
    start_app_already_running os_alice initial_settings world_running pid_path_alice [] 4242
      (by decide) (by decide) (by decide)⟩

theorem process_running_spec_witness :
    process_running os_alice world_empty 1 = (false, world_empty) ∧
    (((process_running os_alice world_empty 4242).1 = true ↔
        os_alice.kill world_empty.trace.length 4242 0 = 0) ∧
      (process_running os_alice world_empty 4242).2 = world_empty.log (Event.kill 4242 0)) :=
  ⟨(process_running_spec os_alice world_empty 1).1 (by decide),
    (process_running_spec os_alice world_empty 4242).2 (by decide)⟩

theorem write_pid_read_pid_witness :
    (write_pid os_alice world_empty pid_path_alice).2.files pid_path_alice =
      some (fmt_d os_alice.getpid ++ [NL]) ∧
    read_pid (write_pid os_alice world_empty pid_path_alice).2 pid_path_alice = os_alice.getpid :=
  write_pid_read_pid os_alice world_empty pid_path_alice (by decide) (by decide) (by decide)

theorem main_exit_status_witness :
    main os_alice world_empty ["application".toList] = some (Outcome.exit 1, help world_empty) ∧
    ∃ w', main os_alice world_empty ["application".toList, "help".toList] =
        some (Outcome.exit 0, w') ∧
      ("help".toList ≠ "stop".toList → "help".toList ≠ "status".toList → ∃ w3, w' = help w3) :=
  ⟨(main_exit_status os_alice world_empty ["application".toList]).1 (by decide),
    (main_exit_status os_alice world_empty ["application".toList, "help".toList]).2
      (by decide) (by decide) (by decide) (by decide)⟩

/-- C5, the claim as written fails: with `USER` set, the unrecognized command
`bogus` makes `main` return 0, not 1. -/
theorem main_unrecognized_returns_zero :
    os_alice.getenv "USER".toList = some "alice".toList ∧
    "bogus".toList ∉ ["start".toList, "stop".toList, "restart".toList, "status".toList,
      "help".toList] ∧
    (main os_alice world_empty ["application".toList, "bogus".toList]).map (fun r => r.1) =
      some (Outcome.exit 0) := by
  decide

theorem expand_env_spec_witness :
    render foo_bar = "${FOO}/bar".toList ∧
    expand_env os_alice.getenv (render foo_bar) 512 = some (expand_spec os_alice.getenv foo_bar) ∧
    expand_spec os_alice.getenv foo_bar = "baz/bar".toList ∧
    expand_env (fun _ => none) (render foo_bar) 512 = some (expand_spec (fun _ => none) foo_bar) ∧
    expand_spec (fun _ => none) foo_bar = "/bar".toList :=
  ⟨by decide,
    expand_env_spec os_alice.getenv foo_bar 512 (by decide)
      (by
        intro n v h
        simp only [os_alice] at h
        split_ifs at h <;> simp only [Option.some.injEq, reduceCtorEq] at h <;> subst h <;> decide)
      (by decide),
    by decide,
    expand_env_spec (fun _ => none) foo_bar 512 (by decide) (by intro n v h; simp at h)
      (by decide),
    by decide⟩

/-- C9, the claim as written fails: the line `APPLICATION_RUN_INTERVAL 10 extra` has
three tokens and is not skipped, it sets the interval to 10. -/
theorem process_line_three_tokens :
    third_token "APPLICATION_RUN_INTERVAL 10 extra\n".toList = "extra".toList ∧
    process_line os_alice.getenv "APPLICATION_RUN_INTERVAL 10 extra\n".toList initial_settings =
      some { initial_settings with run_interval := 10 } ∧
    ({ initial_settings with run_interval := 10 } : Settings) ≠ initial_settings := by
  decide

theorem expand_env_bounded_witness :
    ∃ r full, expand_env os_alice.getenv "${FOO}/bar".toList 3 = some r ∧ r.length ≤ 3 - 1 ∧
      NUL ∉ r ∧
      (∀ m, full.length < m → expand_env os_alice.getenv "${FOO}/bar".toList m = some full) ∧
      r = full.take (3 - 1) ∧ r <+: full :=
  expand_env_bounded os_alice.getenv "${FOO}/bar".toList 3 (by decide)

end ServiceManager
